import Mathlib

/-!
Shallow embedding of the core of `webpack-qiniu-cdn-plugin`:
the version log (`src/VersionLog.js`), the diff classification and the
expiry engine (`src/QiniuCDNPlugin.js`), the content hasher
(`src/QiniuHelper.js`), and the remote-log fetch handler.

JS numbers used as timestamps are modelled as `Int` (a deadline
`timestamp - expireTime` may be negative); array indices as `Nat`;
`undefined`-able parameters as `Option`; a JS `TypeError` (property access
on `undefined`) as `Option.none` in the result of the modelled function.
-/

/-- `LogDetail` from `src/VersionLog.js`: one file entry of a snapshot. -/
structure LogDetail where
  filename : String
  hash : String
deriving DecidableEq

/-- `LogRecord` from `src/VersionLog.js`: one deployment snapshot.
The JS field `omit` is spelled `omitted` here because `omit` is a Lean
keyword; everywhere below `omitted` models the source's `omit` field. -/
structure LogRecord where
  timestamp : Int
  upload : List LogDetail
  omitted : List LogDetail
deriving DecidableEq

/-- `VersionData`: the result shape of `VersionLog.findVersion`. -/
structure VersionData where
  versionIndex : Nat
  timestamp : Int
deriving DecidableEq

namespace VersionLog

/-- The per-file test of `findVersion` (line 46 of `VersionLog.js`):
`(!hash || hash === targetFile.hash) && filename === targetFile.filename`.
JS `!hash` is true both for `undefined` and for the empty string. -/
def fileTest (filename : String) (hash : Option String) (targetFile : LogDetail) : Bool :=
  (match hash with
   | none => true
   | some h => h.isEmpty || h == targetFile.hash)
  && filename == targetFile.filename

/-- The scan loop of `findVersion`: walk the records with their running
index `i`; in each record search `upload ++ omit` for the first entry
passing `fileTest`; on a hit return `{versionIndex := i, timestamp}`. -/
def findVersionLoop (filename : String) (hash : Option String) :
    Nat → List LogRecord → Option VersionData
  | _, [] => none
  | i, r :: rest =>
    match (r.upload ++ r.omitted).find? (fileTest filename hash) with
    | some _ => some ⟨i, r.timestamp⟩
    | none => findVersionLoop filename hash (i + 1) rest

/-- `VersionLog.findVersion(filename, hash, startIndex = 0)`:
scan `record` from `startIndex` onwards. -/
def findVersion (record : List LogRecord) (filename : String)
    (hash : Option String := none) (startIndex : Nat := 0) : Option VersionData :=
  findVersionLoop filename hash startIndex (record.drop startIndex)

/-- The comparator of `init`: `(a, b) => b.timestamp - a.timestamp`
orders records by non-increasing timestamp. -/
def initLE (a b : LogRecord) : Prop :=
  b.timestamp ≤ a.timestamp

instance : DecidableRel initLE := fun a b => Int.decLe b.timestamp a.timestamp

/-- `VersionLog.init(content)`:
`this.record = content.slice().sort((a, b) => b.timestamp - a.timestamp)` —
a copy of `content` sorted by the comparator (descending timestamp).
`Array.prototype.sort` is modelled by insertion sort, a comparator sort. -/
def init (content : List LogRecord) : List LogRecord :=
  content.insertionSort initLE

/-- `VersionLog.append(log)`: `this.record.unshift(log)`. -/
def append (record : List LogRecord) (log : LogRecord) : List LogRecord :=
  log :: record

/-- `VersionLog.getLastVersion()`: `this.record[0]`, `undefined` if empty. -/
def getLastVersion (record : List LogRecord) : Option LogRecord :=
  record.head?

/-- The expiry test of `getFirstExpireVersionIndex` at index `i` on a
record with timestamp `timestamp` (lines 80-90 of `VersionLog.js`). -/
def expireTest (maxiumVersion : Option Nat) (deadline : Option Int)
    (i : Nat) (timestamp : Int) : Bool :=
  let deadlineDefined := deadline.isSome
  let versionDefined := maxiumVersion.isSome
  let timeExpire :=
    match deadline with
    | some d => decide (timestamp < d)
    | none => false
  let versionExpire :=
    match maxiumVersion with
    | some m => decide (i > m)
    | none => false
  (timeExpire && versionExpire) ||
  (!deadlineDefined && versionExpire) ||
  (!versionDefined && timeExpire)

/-- The loop of `getFirstExpireVersionIndex`: increment `i` until
`expireTest` breaks the loop, then return `i` (so `record.length` when no
record passes the test). -/
def firstExpireLoop (maxiumVersion : Option Nat) (deadline : Option Int) :
    Nat → List LogRecord → Nat
  | i, [] => i
  | i, r :: rest =>
    if expireTest maxiumVersion deadline i r.timestamp then i
    else firstExpireLoop maxiumVersion deadline (i + 1) rest

/-- `VersionLog.getFirstExpireVersionIndex(maxiumVersion, deadline)`. -/
def getFirstExpireVersionIndex (record : List LogRecord)
    (maxiumVersion : Option Nat) (deadline : Option Int) : Nat :=
  firstExpireLoop maxiumVersion deadline 0 record

/-- `VersionLog.getFreshVersions(maxiumVersion, deadline)`:
`this.record.slice(0, expireIndex)`. -/
def getFreshVersions (record : List LogRecord)
    (maxiumVersion : Option Nat) (deadline : Option Int) : List LogRecord :=
  record.take (getFirstExpireVersionIndex record maxiumVersion deadline)

/-- `VersionLog.getVersions(startIndex, endIndex)`:
`this.record.slice(startIndex, endIndex)`; an absent `endIndex` slices to
the end of the array. -/
def getVersions (record : List LogRecord)
    (startIndex : Nat := 0) (endIndex : Option Nat := none) : List LogRecord :=
  match endIndex with
  | some e => (record.take e).drop startIndex
  | none => record.drop startIndex

end VersionLog

section Sanity

example :
    VersionLog.findVersion
      [⟨20, [⟨"a.js", "h1"⟩], []⟩, ⟨10, [⟨"a.js", "h0"⟩], []⟩] "a.js"
      = some ⟨0, 20⟩ := by decide

example :
    VersionLog.getFirstExpireVersionIndex
      [⟨30, [], []⟩, ⟨20, [], []⟩, ⟨10, [], []⟩] (some 1) none = 2 := by decide

example :
    VersionLog.getFirstExpireVersionIndex
      [⟨30, [], []⟩, ⟨20, [], []⟩, ⟨10, [], []⟩] none none = 3 := by decide

example :
    VersionLog.init [⟨5, [], []⟩, ⟨20, [], []⟩, ⟨1, [], []⟩]
      = [⟨20, [], []⟩, ⟨5, [], []⟩, ⟨1, [], []⟩] := by decide

end Sanity

/-! ### `src/utils.js` -/

/-- `utils.filePath2Uri`: `filepath.replace(/\\/g, '/')` — every
backslash character becomes a forward slash. -/
def filePath2Uri (filepath : String) : String :=
  String.mk (filepath.toList.map (fun c => if c = '\\' then '/' else c))

/-! ### `src/QiniuHelper.js` — the content hasher

Bytes are modelled as `Nat` (values below 256).  The SHA-1 primitive
(`utils.hashChunk`, backed by Node's `crypto`) is external to this
repository, so every definition is parameterised by the digest function
`hashChunk : List Nat → List Nat`. -/

/-- `BUFFER_LENGTH_OF_4M = 4 * Math.pow(2, 10 * 2)`. -/
def BUFFER_LENGTH_OF_4M : Nat := 4 * 2 ^ (10 * 2)

/-- The standard base64 alphabet, indexed 0..63. -/
def base64Alphabet : List Char :=
  "ABCDEFGHIJKLMNOPQRSTUVWXYZabcdefghijklmnopqrstuvwxyz0123456789+/".toList

/-- One 6-bit group to a base64 character. -/
def base64Char (n : Nat) : Char :=
  base64Alphabet.getD n '?'

/-- Standard base64 (RFC 4648): 3 input bytes become 4 characters, a
2-byte remainder becomes 3 characters plus one pad, a 1-byte remainder
becomes 2 characters plus two pads.  This models Node's
`Buffer.prototype.toString('base64')`. -/
def base64Groups : List Nat → List Char
  | b1 :: b2 :: b3 :: rest =>
    let n := b1 % 256 * 65536 + b2 % 256 * 256 + b3 % 256
    base64Char (n / 262144) :: base64Char (n / 4096 % 64) ::
      base64Char (n / 64 % 64) :: base64Char (n % 64) :: base64Groups rest
  | [b1, b2] =>
    let n := b1 % 256 * 65536 + b2 % 256 * 256
    [base64Char (n / 262144), base64Char (n / 4096 % 64), base64Char (n / 64 % 64), '=']
  | [b1] =>
    let n := b1 % 256 * 65536
    [base64Char (n / 262144), base64Char (n / 4096 % 64), '=', '=']
  | [] => []

def base64Encode (bytes : List Nat) : String :=
  String.mk (base64Groups bytes)

/-- `.replace(/\/|\+/g, (match) => match === '+' ? '-' : '_')`: every `+`
becomes `-`, every `/` becomes `_`, all other characters are unchanged. -/
def urlSafeReplace (s : String) : String :=
  String.mk (s.toList.map (fun c => if c = '+' then '-' else if c = '/' then '_' else c))

/-- The chunking loop of `hashFile` (lines 82-87 of `QiniuHelper.js`):
`while (buf.length) { push(hashChunk(buf.slice(0, 4M))); buf = buf.slice(4M) }`. -/
def hashChunkLoop (hashChunk : List Nat → List Nat) (buf : List Nat) :
    List (List Nat) :=
  if buf = [] then []
  else
    hashChunk (buf.take BUFFER_LENGTH_OF_4M) ::
      hashChunkLoop hashChunk (buf.drop BUFFER_LENGTH_OF_4M)
termination_by buf.length
decreasing_by
  simp only [List.length_drop]
  have hb : 0 < buf.length := List.length_pos.mpr (by assumption)
  have h4 : BUFFER_LENGTH_OF_4M = 4194304 := rfl
  omega

/-- `QiniuHelper.hashFile(buf)` (qiniu etag): single-SHA1 path with prefix
byte `0x16` for buffers of at most 4 MiB, chunked path with prefix byte
`0x96` otherwise, then base64 with the two URL-safe replacements. -/
def hashFile (hashChunk : List Nat → List Nat) (buf : List Nat) : String :=
  let fileHash :=
    if buf.length ≤ BUFFER_LENGTH_OF_4M then
      0x16 :: hashChunk buf
    else
      0x96 :: hashChunk (hashChunkLoop hashChunk buf).flatten
  urlSafeReplace (base64Encode fileHash)

/-- The claim's view of the chunking: the list of consecutive `size`-byte
chunks (the last possibly shorter), chunk `i` being
`buf.drop (i * size) |>.take size`, with `⌈buf.length / size⌉` chunks. -/
def specChunks (buf : List Nat) (size : Nat) : List (List Nat) :=
  (List.range ((buf.length + size - 1) / size)).map
    fun i => (buf.drop (i * size)).take size

/-- `hashFile` as the claim states it, built on `specChunks`. -/
def hashFileSpec (hashChunk : List Nat → List Nat) (buf : List Nat) : String :=
  let fileHash :=
    if buf.length ≤ 4 * 1024 * 1024 then
      0x16 :: hashChunk buf
    else
      0x96 :: hashChunk ((specChunks buf (4 * 1024 * 1024)).map hashChunk).flatten
  urlSafeReplace (base64Encode fileHash)

/-! ### `src/QiniuCDNPlugin.js` — diff classification (`initUploadStatus`)

A local build asset is modelled by its webpack asset key and the content
hash `hashFile` would give its bytes.  `path.relative(outputPath,
path.join(outputPath, assetsKey))` is abstracted as a parameter
`rel : String → String` applied to the asset key.  The `asyncQueue` that
reads files preserves the set of surviving assets; the classification
pass is modelled over the filtered asset list in order. -/

structure LocalAsset where
  assetKey : String
  hash : String
deriving DecidableEq

/-- The four diff buckets of `this.uploadStatus` that `initUploadStatus`
fills (the JS `omit` array is spelled `omitted`). -/
structure UploadStatus where
  exclude : List LogDetail
  omitted : List LogDetail
  upload : List LogDetail
  overwrite : List LogDetail
deriving DecidableEq

def emptyUploadStatus : UploadStatus := ⟨[], [], [], []⟩

namespace QiniuCDNPlugin

/-- Pass 1 of `initUploadStatus` (lines 252-264): `filePaths.filter(...)`
pushes `{filename: filePath2Uri(filePath), hash: '*EXCLUDED*'}` for each
path accepted by the exclude test and keeps the rest. -/
def excludePass (excludeTest : String → Bool) :
    List LocalAsset → UploadStatus → UploadStatus × List LocalAsset
  | [], st => (st, [])
  | a :: rest, st =>
    if excludeTest a.assetKey then
      excludePass excludeTest rest
        { st with exclude := st.exclude ++ [⟨filePath2Uri a.assetKey, "*EXCLUDED*"⟩] }
    else
      let r := excludePass excludeTest rest st
      (r.1, a :: r.2)

/-- Pass 2 of `initUploadStatus` (lines 291-313): for each surviving local
file, find the remote file with the same uri;
match with equal hash → `omit`, no match → `upload`, otherwise →
`overwrite`. -/
def classifyPass (rel : String → String) (remoteFiles : List LogDetail) :
    List LocalAsset → UploadStatus → UploadStatus
  | [], st => st
  | file :: rest, st =>
    let fileUri := filePath2Uri (rel file.assetKey)
    let logItme : LogDetail := ⟨fileUri, file.hash⟩
    let st' :=
      match remoteFiles.find? (fun item => item.filename == fileUri) with
      | some remoteFile =>
        if remoteFile.hash == file.hash then
          { st with omitted := st.omitted ++ [logItme] }
        else
          { st with overwrite := st.overwrite ++ [logItme] }
      | none => { st with upload := st.upload ++ [logItme] }
    classifyPass rel remoteFiles rest st'

/-- `initUploadStatus`: exclude pass, then classification of the kept
local files against the remote listing. -/
def initUploadStatus (rel : String → String) (excludeTest : String → Bool)
    (remoteFiles : List LogDetail) (assets : List LocalAsset) : UploadStatus :=
  let r := excludePass excludeTest assets emptyUploadStatus
  classifyPass rel remoteFiles r.2 r.1

end QiniuCDNPlugin

/-! ### `src/QiniuCDNPlugin.js` — expiry engine (`initCleanStatus`)

`this.options.expire` is modelled as `ExpireOption`; `undefined` results
of JS property accesses that would throw a `TypeError` surface as `none`
of the whole computation. -/

structure ExpireOption where
  time : Option Int
  versions : Option Nat
deriving DecidableEq

namespace QiniuCDNPlugin

/-- The inner `files.forEach` of `initCleanStatus` (lines 428-435): for
every candidate file dereference `log.findVersion(file.filename).versionIndex`
(a `TypeError` — `none` — when `findVersion` returns `undefined`) and keep
the file when that index is at least `firstExpireVersionIndex`. -/
def cleanFilesLoop (record : List LogRecord) (firstExpireVersionIndex : Nat) :
    List LogDetail → Option (List LogDetail)
  | [] => some []
  | file :: rest => do
    let vd ← VersionLog.findVersion record file.filename
    let tail ← cleanFilesLoop record firstExpireVersionIndex rest
    pure (if vd.versionIndex ≥ firstExpireVersionIndex then file :: tail else tail)

/-- The outer `forEach` of `initCleanStatus` (lines 425-436) over
`log.getVersions(firstExpireVersionIndex)`, with the running `index` and
the length `arrLen` of that slice: candidate files are the snapshot's
`upload` entries, plus its `omit` entries when it is the slice's last
element. -/
def cleanVersionsLoop (record : List LogRecord) (firstExpireVersionIndex : Nat)
    (arrLen : Nat) : Nat → List LogRecord → Option (List LogDetail)
  | _, [] => some []
  | index, r :: rest => do
    let files := r.upload ++ (if index == arrLen - 1 then r.omitted else [])
    let here ← cleanFilesLoop record firstExpireVersionIndex files
    let there ← cleanVersionsLoop record firstExpireVersionIndex arrLen (index + 1) rest
    pure (here ++ there)

/-- `initCleanStatus` (lines 415-437): deadline from the last version and
`expire.time`, first expired index, then the clean set collected from the
expired tail of the log.  `none` models the run crashing with a JS
`TypeError` (`lastVersion.timestamp` on an empty log, or `.versionIndex`
on an undefined `findVersion` result). -/
def initCleanStatus (record : List LogRecord) (expire : ExpireOption) :
    Option (List LogDetail) := do
  let deadline : Option Int ←
    match expire.time with
    | some expireTime =>
      match VersionLog.getLastVersion record with
      | some lastVersion => some (some (lastVersion.timestamp - expireTime))
      | none => none
    | none => some none
  let firstExpireVersionIndex :=
    VersionLog.getFirstExpireVersionIndex record expire.versions deadline
  let arr := VersionLog.getVersions record firstExpireVersionIndex none
  cleanVersionsLoop record firstExpireVersionIndex arr.length 0 arr

end QiniuCDNPlugin

/-- The claim's per-candidate test: the file's re-resolved owning version
index is at least `expireIndex` (`false` when `findVersion` finds
nothing). -/
def cleanPred (record : List LogRecord) (expireIndex : Nat) (file : LogDetail) : Bool :=
  match VersionLog.findVersion record file.filename with
  | some vd => decide (vd.versionIndex ≥ expireIndex)
  | none => false

/-- Claim C2's description of the clean set: candidates are the `upload`
entries of every snapshot at index ≥ `expireIndex` plus the `omit` entries
of the single oldest snapshot of that range, filtered by
`findVersion(filename).versionIndex ≥ expireIndex`. -/
def cleanSpec (record : List LogRecord) (expire : ExpireOption) : List LogDetail :=
  let deadline : Option Int :=
    match expire.time, record.head? with
    | some t, some lastVersion => some (lastVersion.timestamp - t)
    | _, _ => none
  let expireIndex := VersionLog.getFirstExpireVersionIndex record expire.versions deadline
  let tail := record.drop expireIndex
  let candidates :=
    (tail.mapIdx fun i r =>
      r.upload ++ (if i = tail.length - 1 then r.omitted else [])).flatten
  candidates.filter (cleanPred record expireIndex)

/-! ### `src/QiniuCDNPlugin.js` — remote-log fetch handler (`initCDNStatus`)

The continuation passed to `utils.readRemoteFile` (lines 211-226).
`JSON.parse` + `this.log.init` on the fetched body is abstracted by a
parameter `parseLog` (`none` = `JSON.parse` throws).  The outcome records
whether the surrounding phase callback was invoked, and with what. -/

inductive CallbackOutcome where
  | calledError (msg : String)
  | calledOk
  | notCalled
deriving DecidableEq

/-- The fetch-log continuation: on a transport error the callback gets the
error; on `200`/`304` the body is parsed and `log.init` runs (parse
failure → error callback); on `404` the code only emits `console.warn` and
invokes no callback at all; any other status → error callback.  Returns
the callback outcome and the resulting log history. -/
def readLogHandler (parseLog : String → Option (List LogRecord))
    (log : List LogRecord) (readLogError : Option String)
    (statusCode : Nat) (content : String) :
    CallbackOutcome × List LogRecord :=
  match readLogError with
  | some e => (.calledError e, log)
  | none =>
    if statusCode = 200 ∨ statusCode = 304 then
      match parseLog content with
      | some records => (.calledOk, VersionLog.init records)
      | none => (.calledError "parse remote log error", log)
    else if statusCode = 404 then
      (.notCalled, log)
    else
      (.calledError "fetch remote version log error", log)

/-! ### Reference-level model of `VersionLog` for the frame claims

JS arrays are mutable heap objects; to state that the query methods do not
mutate the log and that `slice` hands out fresh arrays (not aliasing
views), the `LogRecord[]` arrays live in an explicit heap of cells indexed
by references.  `this.record` is a reference.  `Array.prototype.slice`
allocates a fresh cell holding a copy, `sort` rewrites the cell it is
called on in place, `unshift` rewrites its cell. -/

structure Heap where
  cells : Nat → List LogRecord
  next : Nat

def Heap.read (h : Heap) (r : Nat) : List LogRecord := h.cells r

def Heap.write (h : Heap) (r : Nat) (v : List LogRecord) : Heap :=
  ⟨fun x => if x = r then v else h.cells x, h.next⟩

def Heap.alloc (h : Heap) (v : List LogRecord) : Heap × Nat :=
  (⟨fun x => if x = h.next then v else h.cells x, h.next + 1⟩, h.next)

/-- A `VersionLog` instance: the heap plus the reference stored in
`this.record`. -/
structure VLState where
  heap : Heap
  record : Nat

namespace VLState

/-- `init(content)` at reference level:
`content.slice()` allocates a copy, `.sort(cmp)` rewrites that copy in
place with its sorted permutation, and the resulting reference is stored
into `this.record`.  The caller's `content` cell is never written. -/
def initOp (s : VLState) (content : Nat) : VLState :=
  let a := s.heap.alloc (s.heap.read content)
  let h2 := a.1.write a.2 ((a.1.read a.2).insertionSort VersionLog.initLE)
  ⟨h2, a.2⟩

/-- `findVersion` at reference level: only reads `this.record`. -/
def findVersionOp (s : VLState) (filename : String)
    (hash : Option String := none) (startIndex : Nat := 0) :
    Option VersionData × VLState :=
  (VersionLog.findVersion (s.heap.read s.record) filename hash startIndex, s)

/-- `getLastVersion` at reference level: only reads `this.record[0]`. -/
def getLastVersionOp (s : VLState) : Option LogRecord × VLState :=
  (VersionLog.getLastVersion (s.heap.read s.record), s)

/-- `getFirstExpireVersionIndex` at reference level: only reads. -/
def getFirstExpireVersionIndexOp (s : VLState)
    (maxiumVersion : Option Nat) (deadline : Option Int) : Nat × VLState :=
  (VersionLog.getFirstExpireVersionIndex (s.heap.read s.record) maxiumVersion deadline, s)

/-- `getFreshVersions` at reference level: computes the fresh window and
returns it as a freshly allocated array (`slice`). -/
def getFreshVersionsOp (s : VLState)
    (maxiumVersion : Option Nat) (deadline : Option Int) : Nat × VLState :=
  let res := VersionLog.getFreshVersions (s.heap.read s.record) maxiumVersion deadline
  let a := s.heap.alloc res
  (a.2, ⟨a.1, s.record⟩)

/-- `getVersions` at reference level: returns the sub-range as a freshly
allocated array (`slice`). -/
def getVersionsOp (s : VLState)
    (startIndex : Nat := 0) (endIndex : Option Nat := none) : Nat × VLState :=
  let res := VersionLog.getVersions (s.heap.read s.record) startIndex endIndex
  let a := s.heap.alloc res
  (a.2, ⟨a.1, s.record⟩)

end VLState

/-! ### Claim-side variant of `findVersion` (claim C5)

Claim C5 reads the hash argument as binding whenever it is provided; this
definition follows the claim's words, to be compared with `findVersion`
itself, whose JS `!hash` also discards a provided empty-string hash. -/

/-- The file test as claim C5 states it: the filename must match, and the
hash must match whenever a hash is provided. -/
def specFileTest (filename : String) (hash : Option String) (targetFile : LogDetail) : Bool :=
  (match hash with
   | none => true
   | some h => h == targetFile.hash)
  && filename == targetFile.filename

/-- `findVersion` as claim C5 states it, differing from the source only in
the file test. -/
def findVersionSpecLoop (filename : String) (hash : Option String) :
    Nat → List LogRecord → Option VersionData
  | _, [] => none
  | i, r :: rest =>
    match (r.upload ++ r.omitted).find? (specFileTest filename hash) with
    | some _ => some ⟨i, r.timestamp⟩
    | none => findVersionSpecLoop filename hash (i + 1) rest

def findVersionSpec (record : List LogRecord) (filename : String)
    (hash : Option String := none) (startIndex : Nat := 0) : Option VersionData :=
  findVersionSpecLoop filename hash startIndex (record.drop startIndex)

/-! ## Theorems -/

/-! ### Claim C1 — `getFirstExpireVersionIndex` -/

/-- The expiry condition exactly as claim C1 states it: with both bounds
both must hold, with one bound that bound alone, with no bound nothing
expires. -/
def specExpired (maxVersions : Option Nat) (deadline : Option Int)
    (i : Nat) (timestamp : Int) : Prop :=
  match maxVersions, deadline with
  | some m, some d => timestamp < d ∧ i > m
  | none, some d => timestamp < d
  | some m, none => i > m
  | none, none => False

instance (maxVersions : Option Nat) (deadline : Option Int) (i : Nat) (timestamp : Int) :
    Decidable (specExpired maxVersions deadline i timestamp) := by
  unfold specExpired
  cases maxVersions <;> cases deadline <;> infer_instance

lemma expireTest_iff_specExpired (maxVersions : Option Nat) (deadline : Option Int)
    (i : Nat) (timestamp : Int) :
    VersionLog.expireTest maxVersions deadline i timestamp = true ↔
      specExpired maxVersions deadline i timestamp := by
  cases maxVersions <;> cases deadline <;>
    simp [VersionLog.expireTest, specExpired]

lemma firstExpireLoop_ge (maxVersions : Option Nat) (deadline : Option Int) :
    ∀ (l : List LogRecord) (i : Nat), i ≤ VersionLog.firstExpireLoop maxVersions deadline i l
  | [], i => le_refl i
  | r :: rest, i => by
    rw [VersionLog.firstExpireLoop]
    split
    · exact le_refl i
    · exact le_trans (Nat.le_succ i) (firstExpireLoop_ge maxVersions deadline rest (i + 1))

lemma firstExpireLoop_le (maxVersions : Option Nat) (deadline : Option Int) :
    ∀ (l : List LogRecord) (i : Nat),
      VersionLog.firstExpireLoop maxVersions deadline i l ≤ i + l.length
  | [], i => by simp [VersionLog.firstExpireLoop]
  | r :: rest, i => by
    rw [VersionLog.firstExpireLoop]
    split
    · simp
    · have := firstExpireLoop_le maxVersions deadline rest (i + 1)
      simp only [List.length_cons]
      omega

lemma firstExpireLoop_not_before (maxVersions : Option Nat) (deadline : Option Int) :
    ∀ (l : List LogRecord) (i j : Nat) (r : LogRecord),
      j < VersionLog.firstExpireLoop maxVersions deadline i l - i →
      l[j]? = some r →
      VersionLog.expireTest maxVersions deadline (i + j) r.timestamp = false
  | [], _, j, r => by simp
  | a :: rest, i, j, r => by
    rw [VersionLog.firstExpireLoop]
    split
    · omega
    · match j with
      | 0 =>
        intro _ hget
        simp only [List.getElem?_cons_zero, Option.some_inj] at hget
        subst hget
        simp_all
      | j + 1 =>
        intro hj hget
        simp only [List.getElem?_cons_succ] at hget
        have hge := firstExpireLoop_ge maxVersions deadline rest (i + 1)
        have := firstExpireLoop_not_before maxVersions deadline rest (i + 1) j r
          (by omega) hget
        have harith : i + (j + 1) = i + 1 + j := by omega
        rw [harith]
        exact this

lemma firstExpireLoop_at (maxVersions : Option Nat) (deadline : Option Int) :
    ∀ (l : List LogRecord) (i : Nat) (r : LogRecord),
      l[VersionLog.firstExpireLoop maxVersions deadline i l - i]? = some r →
      VersionLog.expireTest maxVersions deadline
        (VersionLog.firstExpireLoop maxVersions deadline i l) r.timestamp = true
  | [], i, r => by simp
  | a :: rest, i, r => by
    rw [VersionLog.firstExpireLoop]
    split
    · intro hget
      simp only [Nat.sub_self, List.getElem?_cons_zero, Option.some_inj] at hget
      subst hget
      assumption
    · intro hget
      have hge := firstExpireLoop_ge maxVersions deadline rest (i + 1)
      have hpos : VersionLog.firstExpireLoop maxVersions deadline (i + 1) rest - i =
          (VersionLog.firstExpireLoop maxVersions deadline (i + 1) rest - (i + 1)) + 1 := by
        omega
      rw [hpos, List.getElem?_cons_succ] at hget
      exact firstExpireLoop_at maxVersions deadline rest (i + 1) r hget

/-- Claim C1: `getFirstExpireVersionIndex(maxVersions, deadline)` returns
the index of the first snapshot (scanning from index 0 upward) satisfying
the expiry condition — both bounds simultaneously when both are given, the
single given bound alone otherwise — and `record.length` when no snapshot
satisfies it; in particular with neither bound given it returns
`record.length`, and with both bounds a snapshot satisfying only the time
bound while still within `maxVersions` is not expired (no index below the
result satisfies the condition). -/
theorem getFirstExpireVersionIndex_first_expired
    (record : List LogRecord) (maxVersions : Option Nat) (deadline : Option Int) :
    VersionLog.getFirstExpireVersionIndex record maxVersions deadline ≤ record.length ∧
    (∀ j r, j < VersionLog.getFirstExpireVersionIndex record maxVersions deadline →
      record[j]? = some r → ¬ specExpired maxVersions deadline j r.timestamp) ∧
    (∀ r, record[VersionLog.getFirstExpireVersionIndex record maxVersions deadline]? = some r →
      specExpired maxVersions deadline
        (VersionLog.getFirstExpireVersionIndex record maxVersions deadline) r.timestamp) ∧
    (maxVersions = none → deadline = none →
      VersionLog.getFirstExpireVersionIndex record maxVersions deadline = record.length) := by
  unfold VersionLog.getFirstExpireVersionIndex
  refine ⟨?_, ?_, ?_, ?_⟩
  · have := firstExpireLoop_le maxVersions deadline record 0
    omega
  · intro j r hj hget
    have := firstExpireLoop_not_before maxVersions deadline record 0 j r (by omega) hget
    intro hspec
    rw [← expireTest_iff_specExpired] at hspec
    simp only [Nat.zero_add] at this
    rw [this] at hspec
    exact Bool.false_ne_true hspec
  · intro r hget
    have := firstExpireLoop_at maxVersions deadline record 0
      r (by simpa using hget)
    rw [expireTest_iff_specExpired] at this
    exact this
  · intro hmv hdl
    subst hmv; subst hdl
    have hle := firstExpireLoop_le (none) (none) record 0
    by_contra hne
    have hlt : VersionLog.firstExpireLoop none none 0 record < record.length := by omega
    obtain ⟨r, hr⟩ : ∃ r, record[VersionLog.firstExpireLoop none none 0 record]? = some r := by
      exact ⟨record.get ⟨VersionLog.firstExpireLoop none none 0 record, hlt⟩,
        List.getElem?_eq_getElem hlt⟩
    have := firstExpireLoop_at none none record 0 r (by simpa using hr)
    rw [expireTest_iff_specExpired] at this
    exact this

/-- Concrete instantiation of the C1 theorem: on a two-snapshot log with
`maxVersions = 0` and `deadline = 3`, the first expired index is 1; index
0 (timestamp 5, not stale) is not expired and index 1 (stale and beyond
the version bound) is. -/
theorem getFirstExpireVersionIndex_first_expired_witness :
    VersionLog.getFirstExpireVersionIndex
      [⟨5, [], []⟩, ⟨1, [], []⟩] (some 0) (some 3) = 1 ∧
    ¬ specExpired (some 0) (some 3) 0 (5 : Int) ∧
    specExpired (some 0) (some 3) 1 (1 : Int) :=
  ⟨by decide,
   (getFirstExpireVersionIndex_first_expired
      [⟨5, [], []⟩, ⟨1, [], []⟩] (some 0) (some 3)).2.1 0 ⟨5, [], []⟩
      (by decide) (by decide),
   (getFirstExpireVersionIndex_first_expired
      [⟨5, [], []⟩, ⟨1, [], []⟩] (some 0) (some 3)).2.2.1 ⟨1, [], []⟩
      (by decide)⟩

/-! ### Claim C7 — `init` and `getLastVersion` -/

instance : IsTotal LogRecord VersionLog.initLE :=
  ⟨fun a b => Int.le_total b.timestamp a.timestamp⟩

instance : IsTrans LogRecord VersionLog.initLE :=
  ⟨fun _ _ _ hab hbc => le_trans hbc hab⟩

/-- Claim C7: `init(records)` replaces the history with the given
snapshots sorted in descending order of timestamp (a permutation of the
input, pairwise non-increasing timestamps), and afterwards
`getLastVersion()` returns the snapshot at index 0 — a snapshot of the
input of maximum timestamp — or `undefined` exactly when the log is
empty. -/
theorem init_sorted_desc_getLastVersion_max (content : List LogRecord) :
    (VersionLog.init content).Perm content ∧
    List.Sorted VersionLog.initLE (VersionLog.init content) ∧
    (VersionLog.getLastVersion (VersionLog.init content) = none ↔ content = []) ∧
    (∀ r, VersionLog.getLastVersion (VersionLog.init content) = some r →
      (VersionLog.init content)[0]? = some r ∧ r ∈ content ∧
        ∀ x ∈ content, x.timestamp ≤ r.timestamp) := by
  have hperm : (VersionLog.init content).Perm content :=
    List.perm_insertionSort VersionLog.initLE content
  have hsorted : List.Sorted VersionLog.initLE (VersionLog.init content) :=
    List.sorted_insertionSort VersionLog.initLE content
  refine ⟨hperm, hsorted, ?_, ?_⟩
  · unfold VersionLog.getLastVersion
    rw [List.head?_eq_none_iff]
    constructor
    · intro h
      exact (h ▸ hperm).symm.eq_nil
    · intro h
      subst h
      exact hperm.eq_nil
  · intro r hr
    unfold VersionLog.getLastVersion at hr
    obtain ⟨t, ht⟩ : ∃ t, VersionLog.init content = r :: t := by
      cases hinit : VersionLog.init content with
      | nil => rw [hinit] at hr; simp at hr
      | cons a t =>
        rw [hinit] at hr
        simp only [List.head?_cons, Option.some_inj] at hr
        exact ⟨t, by rw [hr]⟩
    refine ⟨by simp [ht], ?_, ?_⟩
    · exact hperm.mem_iff.mp (by rw [ht]; exact List.mem_cons_self r t)
    · intro x hx
      have hx' : x ∈ VersionLog.init content := hperm.mem_iff.mpr hx
      rw [ht] at hx'
      rcases List.mem_cons.mp hx' with h | h
      · rw [h]
      · rw [ht] at hsorted
        exact (List.sorted_cons.mp hsorted).1 x h

/-- Concrete instantiation of the C7 theorem: for the spec's example
`[5, 20, 1]` the head after `init` is the timestamp-20 snapshot, it is a
member of the input, and it dominates the timestamp-5 snapshot. -/
theorem init_sorted_desc_getLastVersion_max_witness :
    VersionLog.getLastVersion
        (VersionLog.init [⟨5, [], []⟩, ⟨20, [], []⟩, ⟨1, [], []⟩]) = some ⟨20, [], []⟩ ∧
    (⟨20, [], []⟩ : LogRecord) ∈ [⟨5, [], []⟩, ⟨20, [], []⟩, ⟨1, [], []⟩] ∧
    (5 : Int) ≤ 20 :=
  ⟨by decide,
   ((init_sorted_desc_getLastVersion_max
       [⟨5, [], []⟩, ⟨20, [], []⟩, ⟨1, [], []⟩]).2.2.2 ⟨20, [], []⟩
       (by decide)).2.1,
   ((init_sorted_desc_getLastVersion_max
       [⟨5, [], []⟩, ⟨20, [], []⟩, ⟨1, [], []⟩]).2.2.2 ⟨20, [], []⟩
       (by decide)).2.2 ⟨5, [], []⟩ (by decide)⟩

/-! ### Claim C5 — `findVersion` -/

lemma fileTest_eq_specFileTest_of_ne (filename : String) (hash : Option String)
    (hne : hash ≠ some "") :
    VersionLog.fileTest filename hash = specFileTest filename hash := by
  funext f
  cases hash with
  | none => rfl
  | some h =>
    have hh : h ≠ "" := fun hh => hne (by rw [hh])
    have : h.isEmpty = false := by
      rw [Bool.eq_false_iff]
      intro hemp
      exact hh ((String.isEmpty_iff h).mp hemp)
    simp [VersionLog.fileTest, specFileTest, this]

lemma findVersionLoop_some (filename : String) (hash : Option String) :
    ∀ (l : List LogRecord) (i : Nat) (vd : VersionData),
      VersionLog.findVersionLoop filename hash i l = some vd →
      i ≤ vd.versionIndex ∧
      (∃ r, l[vd.versionIndex - i]? = some r ∧ vd.timestamp = r.timestamp ∧
        ∃ f ∈ r.upload ++ r.omitted, VersionLog.fileTest filename hash f = true) ∧
      ∀ j r, j < vd.versionIndex - i → l[j]? = some r →
        ∀ f ∈ r.upload ++ r.omitted, VersionLog.fileTest filename hash f = false
  | [], i, vd => by simp [VersionLog.findVersionLoop]
  | a :: rest, i, vd => by
    rw [VersionLog.findVersionLoop]
    split
    · next f hfind =>
      intro hsome
      simp only [Option.some_inj] at hsome
      subst hsome
      refine ⟨le_refl i, ⟨a, by simp, rfl, f, List.mem_of_find?_eq_some hfind,
        List.find?_some hfind⟩, ?_⟩
      intro j r hj
      simp at hj
    · next hfind =>
      intro hsome
      obtain ⟨hge, ⟨r, hr, hts, hmatch⟩, hbefore⟩ :=
        findVersionLoop_some filename hash rest (i + 1) vd hsome
      have hgt : i ≤ vd.versionIndex := by omega
      refine ⟨hgt, ⟨r, ?_, hts, hmatch⟩, ?_⟩
      · have : vd.versionIndex - i = (vd.versionIndex - (i + 1)) + 1 := by omega
        rw [this, List.getElem?_cons_succ]
        exact hr
      · intro j s hj hget f hf
        match j with
        | 0 =>
          simp only [List.getElem?_cons_zero, Option.some_inj] at hget
          subst hget
          exact Bool.eq_false_iff.mpr (List.find?_eq_none.mp hfind f hf)
        | j + 1 =>
          rw [List.getElem?_cons_succ] at hget
          exact hbefore j s (by omega) hget f hf

lemma findVersionLoop_none (filename : String) (hash : Option String) :
    ∀ (l : List LogRecord) (i : Nat),
      VersionLog.findVersionLoop filename hash i l = none →
      ∀ (j : Nat) (r : LogRecord), l[j]? = some r →
        ∀ f ∈ r.upload ++ r.omitted, VersionLog.fileTest filename hash f = false
  | [], i => by simp
  | a :: rest, i => by
    rw [VersionLog.findVersionLoop]
    split
    · next f hfind => intro h; exact absurd h (by simp)
    · next hfind =>
      intro hnone j r hget f hf
      match j with
      | 0 =>
        simp only [List.getElem?_cons_zero, Option.some_inj] at hget
        subst hget
        exact Bool.eq_false_iff.mpr (List.find?_eq_none.mp hfind f hf)
      | j + 1 =>
        rw [List.getElem?_cons_succ] at hget
        exact findVersionLoop_none filename hash rest (i + 1) hnone j r hget f hf

/-- Claim C5 as stated is false at a concrete input: with a provided
empty-string hash the source's `!hash` check discards the hash argument,
so `findVersion` matches a record whose hash is `"h1" ≠ ""`, while the
claim's reading (`findVersionSpec`, hash must match whenever provided)
returns `undefined`. -/
theorem findVersion_empty_hash_counterexample :
    VersionLog.findVersion [⟨10, [⟨"a.js", "h1"⟩], []⟩] "a.js" (some "") 0
      = some ⟨0, 10⟩ ∧
    findVersionSpec [⟨10, [⟨"a.js", "h1"⟩], []⟩] "a.js" (some "") 0 = none := by
  decide

/-- Claim C5 (amended): for every log, filename, optional hash that is not
the empty string, and startIndex, `findVersion` scans snapshots from
`startIndex` toward older versions and returns the `versionIndex` and
`timestamp` of the first snapshot containing a FileRecord (among
`upload ++ omit`) whose filename equals the argument and whose hash equals
the argument hash when one is provided; it returns `undefined` when no
such record exists at any index ≥ `startIndex`.  (The empty-string proviso
is forced: JS `!hash` treats a provided `""` like an absent hash.) -/
theorem findVersion_first_match (record : List LogRecord) (filename : String)
    (hash : Option String) (startIndex : Nat) (hne : hash ≠ some "") :
    (∀ vd, VersionLog.findVersion record filename hash startIndex = some vd →
      startIndex ≤ vd.versionIndex ∧
      (∃ r, record[vd.versionIndex]? = some r ∧ vd.timestamp = r.timestamp ∧
        ∃ f ∈ r.upload ++ r.omitted, specFileTest filename hash f = true) ∧
      (∀ j r, startIndex ≤ j → j < vd.versionIndex → record[j]? = some r →
        ∀ f ∈ r.upload ++ r.omitted, specFileTest filename hash f = false)) ∧
    (VersionLog.findVersion record filename hash startIndex = none →
      ∀ j r, startIndex ≤ j → record[j]? = some r →
        ∀ f ∈ r.upload ++ r.omitted, specFileTest filename hash f = false) := by
  rw [← fileTest_eq_specFileTest_of_ne filename hash hne]
  unfold VersionLog.findVersion
  constructor
  · intro vd hsome
    obtain ⟨hge, ⟨r, hr, hts, hmatch⟩, hbefore⟩ :=
      findVersionLoop_some filename hash (record.drop startIndex) startIndex vd hsome
    rw [List.getElem?_drop] at hr
    have hidx : startIndex + (vd.versionIndex - startIndex) = vd.versionIndex := by omega
    rw [hidx] at hr
    refine ⟨hge, ⟨r, hr, hts, hmatch⟩, ?_⟩
    intro j s hj1 hj2 hget
    have := hbefore (j - startIndex) s (by omega) ?_
    · exact this
    · rw [List.getElem?_drop]
      have : startIndex + (j - startIndex) = j := by omega
      rw [this]
      exact hget
  · intro hnone j s hj hget
    have := findVersionLoop_none filename hash (record.drop startIndex) startIndex hnone
      (j - startIndex) s ?_
    · exact this
    · rw [List.getElem?_drop]
      have : startIndex + (j - startIndex) = j := by omega
      rw [this]
      exact hget

/-- Concrete instantiation of the amended C5 theorem: on the spec's
two-snapshot example with hash `"h0"` provided, the match is the older
snapshot `{versionIndex := 1, timestamp := 10}`, at an index ≥ the start
index 0. -/
theorem findVersion_first_match_witness :
    VersionLog.findVersion
        [⟨20, [⟨"a.js", "h1"⟩], []⟩, ⟨10, [⟨"a.js", "h0"⟩], []⟩]
        "a.js" (some "h0") 0 = some ⟨1, 10⟩ ∧
    (0 : Nat) ≤ (1 : Nat) :=
  ⟨by decide,
   ((findVersion_first_match
       [⟨20, [⟨"a.js", "h1"⟩], []⟩, ⟨10, [⟨"a.js", "h0"⟩], []⟩]
       "a.js" (some "h0") 0 (by decide)).1 ⟨1, 10⟩ (by decide)).1⟩

/-! ### Claim C3 — `hashFile` -/

lemma B4M_eq : BUFFER_LENGTH_OF_4M = 4 * 1024 * 1024 := by
  norm_num [BUFFER_LENGTH_OF_4M]

lemma specChunks_nil : specChunks [] (4 * 1024 * 1024) = [] := by
  unfold specChunks
  rw [List.length_nil, Nat.div_eq_of_lt (by omega)]
  rfl

lemma specChunks_cons (buf : List Nat) (hbuf : buf ≠ []) :
    specChunks buf (4 * 1024 * 1024) =
      buf.take (4 * 1024 * 1024) ::
        specChunks (buf.drop (4 * 1024 * 1024)) (4 * 1024 * 1024) := by
  have hL : 1 ≤ buf.length := List.length_pos.mpr hbuf
  unfold specChunks
  rw [List.length_drop]
  have hn : (buf.length + 4 * 1024 * 1024 - 1) / (4 * 1024 * 1024) =
      (buf.length - 4 * 1024 * 1024 + 4 * 1024 * 1024 - 1) / (4 * 1024 * 1024) + 1 := by
    omega
  rw [hn, List.range_succ_eq_map, List.map_cons, List.map_map]
  rw [List.cons.injEq]
  refine ⟨by rw [Nat.zero_mul, List.drop_zero], ?_⟩
  apply List.map_congr_left
  intro i hi
  simp only [Function.comp_apply, Nat.succ_eq_add_one]
  rw [List.drop_drop]
  rw [show (i + 1) * (4 * 1024 * 1024) = 4 * 1024 * 1024 + i * (4 * 1024 * 1024) by ring]

lemma hashChunkLoop_eq_specChunks (hashChunk : List Nat → List Nat) (buf : List Nat) :
    hashChunkLoop hashChunk buf = (specChunks buf (4 * 1024 * 1024)).map hashChunk := by
  by_cases h : buf = []
  · subst h
    rw [hashChunkLoop, if_pos rfl, specChunks_nil, List.map_nil]
  · have ih := hashChunkLoop_eq_specChunks hashChunk (buf.drop BUFFER_LENGTH_OF_4M)
    rw [hashChunkLoop]
    simp only [if_neg h]
    rw [ih, specChunks_cons buf h, List.map_cons, B4M_eq]
termination_by buf.length
decreasing_by
  have hb : 0 < buf.length := List.length_pos.mpr h
  simp only [List.length_drop]
  have h4 : BUFFER_LENGTH_OF_4M = 4194304 := rfl
  omega

lemma specChunks_flatten (buf : List Nat) :
    (specChunks buf (4 * 1024 * 1024)).flatten = buf := by
  by_cases h : buf = []
  · subst h
    rw [specChunks_nil]
    rfl
  · have ih := specChunks_flatten (buf.drop (4 * 1024 * 1024))
    rw [specChunks_cons buf h, List.flatten_cons, ih, List.take_append_drop]
termination_by buf.length
decreasing_by
  have hb : 0 < buf.length := List.length_pos.mpr h
  simp only [List.length_drop]
  omega

lemma specChunks_dropLast_len (buf : List Nat) :
    ((specChunks buf (4 * 1024 * 1024)).dropLast.all
      fun c => c.length == 4 * 1024 * 1024) = true := by
  by_cases h : buf = []
  · subst h
    rw [specChunks_nil]
    rfl
  · have ih := specChunks_dropLast_len (buf.drop (4 * 1024 * 1024))
    rw [specChunks_cons buf h]
    by_cases htail : buf.drop (4 * 1024 * 1024) = []
    · rw [htail, specChunks_nil]
      rfl
    · have hlen : 4 * 1024 * 1024 < buf.length := by
        have hd := List.length_drop (4 * 1024 * 1024) buf
        have hpos : 0 < (buf.drop (4 * 1024 * 1024)).length :=
          List.length_pos.mpr htail
        omega
      have hcons : specChunks (buf.drop (4 * 1024 * 1024)) (4 * 1024 * 1024) ≠ [] := by
        rw [specChunks_cons _ htail]
        exact List.cons_ne_nil _ _
      obtain ⟨c, cs, hcs⟩ := List.exists_cons_of_ne_nil hcons
      rw [hcs]
      rw [hcs] at ih
      simp only [List.dropLast_cons₂, List.all_cons, Bool.and_eq_true] at ih ⊢
      refine ⟨?_, ih⟩
      simp only [List.length_take, beq_iff_eq]
      omega
termination_by buf.length
decreasing_by
  have hb : 0 < buf.length := List.length_pos.mpr h
  simp only [List.length_drop]
  omega

lemma specChunks_len_le (buf : List Nat) :
    ((specChunks buf (4 * 1024 * 1024)).all
      fun c => decide (c.length ≤ 4 * 1024 * 1024)) = true := by
  rw [List.all_eq_true]
  intro c hc
  unfold specChunks at hc
  obtain ⟨i, _, hi⟩ := List.mem_map.mp hc
  rw [← hi]
  simp only [decide_eq_true_eq, List.length_take]
  omega

/-- Claim C3: for every byte buffer, `hashFile` equals the claim's
pipeline — at most 4 MiB: byte `0x16` followed by the digest of the whole
content; above 4 MiB: byte `0x96` followed by the digest of the
concatenated per-chunk digests of the consecutive 4 MiB chunks — then
standard base64 with only `+`→`-` and `/`→`_` replaced; moreover the
chunks concatenate back to the buffer, every chunk before the last is
exactly 4 MiB, and no chunk exceeds 4 MiB.  (`hashChunk` abstracts the
external SHA-1 primitive used by both source and claim.) -/
theorem hashFile_matches_qetag_spec (hashChunk : List Nat → List Nat) (buf : List Nat) :
    hashFile hashChunk buf = hashFileSpec hashChunk buf ∧
    (specChunks buf (4 * 1024 * 1024)).flatten = buf ∧
    ((specChunks buf (4 * 1024 * 1024)).dropLast.all
      fun c => c.length == 4 * 1024 * 1024) = true ∧
    ((specChunks buf (4 * 1024 * 1024)).all
      fun c => decide (c.length ≤ 4 * 1024 * 1024)) = true := by
  refine ⟨?_, specChunks_flatten buf, specChunks_dropLast_len buf, specChunks_len_le buf⟩
  unfold hashFile hashFileSpec
  rw [B4M_eq, hashChunkLoop_eq_specChunks]

/-! ### Claim C4 — diff classification -/

/-- The remote file a local asset is matched against: the first remote
entry whose filename equals the asset's separator-normalized uri. -/
def remoteMatch (rel : String → String) (remoteFiles : List LogDetail)
    (a : LocalAsset) : Option LogDetail :=
  remoteFiles.find? (fun item => item.filename == filePath2Uri (rel a.assetKey))

/-- The log item a classified local asset contributes. -/
def localItem (rel : String → String) (a : LocalAsset) : LogDetail :=
  ⟨filePath2Uri (rel a.assetKey), a.hash⟩

/-- Claim-side condition: the asset is excluded. -/
def exclCond (excludeTest : String → Bool) (a : LocalAsset) : Bool :=
  excludeTest a.assetKey

/-- Claim-side condition: kept and no remote file shares its filename. -/
def uploadCond (rel : String → String) (excludeTest : String → Bool)
    (remoteFiles : List LogDetail) (a : LocalAsset) : Bool :=
  !excludeTest a.assetKey &&
    (match remoteMatch rel remoteFiles a with
     | some _ => false
     | none => true)

/-- Claim-side condition: kept, matched by filename, equal hash. -/
def omitCond (rel : String → String) (excludeTest : String → Bool)
    (remoteFiles : List LogDetail) (a : LocalAsset) : Bool :=
  !excludeTest a.assetKey &&
    (match remoteMatch rel remoteFiles a with
     | some remoteFile => remoteFile.hash == a.hash
     | none => false)

/-- Claim-side condition: kept, matched by filename, different hash. -/
def overwriteCond (rel : String → String) (excludeTest : String → Bool)
    (remoteFiles : List LogDetail) (a : LocalAsset) : Bool :=
  !excludeTest a.assetKey &&
    (match remoteMatch rel remoteFiles a with
     | some remoteFile => remoteFile.hash != a.hash
     | none => false)

lemma excludePass_spec (excludeTest : String → Bool) :
    ∀ (assets : List LocalAsset) (st : UploadStatus),
      QiniuCDNPlugin.excludePass excludeTest assets st =
        ({ st with exclude := st.exclude ++
            ((assets.filter (fun a => excludeTest a.assetKey)).map
              (fun a => ⟨filePath2Uri a.assetKey, "*EXCLUDED*"⟩)) },
         assets.filter (fun a => !excludeTest a.assetKey))
  | [], st => by simp [QiniuCDNPlugin.excludePass]
  | a :: rest, st => by
    rw [QiniuCDNPlugin.excludePass]
    by_cases h : excludeTest a.assetKey
    · rw [if_pos h, excludePass_spec excludeTest rest]
      simp [List.filter_cons, h, List.append_assoc]
    · rw [if_neg h, excludePass_spec excludeTest rest]
      simp [List.filter_cons, h]

lemma classifyPass_spec (rel : String → String) (remoteFiles : List LogDetail) :
    ∀ (files : List LocalAsset) (st : UploadStatus),
      QiniuCDNPlugin.classifyPass rel remoteFiles files st =
        { st with
          omitted := st.omitted ++
            ((files.filter (fun a =>
              match remoteMatch rel remoteFiles a with
              | some remoteFile => remoteFile.hash == a.hash
              | none => false)).map (localItem rel)),
          upload := st.upload ++
            ((files.filter (fun a =>
              match remoteMatch rel remoteFiles a with
              | some _ => false
              | none => true)).map (localItem rel)),
          overwrite := st.overwrite ++
            ((files.filter (fun a =>
              match remoteMatch rel remoteFiles a with
              | some remoteFile => remoteFile.hash != a.hash
              | none => false)).map (localItem rel)) }
  | [], st => by simp [QiniuCDNPlugin.classifyPass]
  | a :: rest, st => by
    rw [QiniuCDNPlugin.classifyPass]
    cases hfind : remoteMatch rel remoteFiles a with
    | some remoteFile =>
      by_cases hh : remoteFile.hash == a.hash
      · simp only [remoteMatch] at hfind
        simp only [hfind, hh, if_pos]
        rw [classifyPass_spec rel remoteFiles rest]
        simp only [List.filter_cons, remoteMatch, hfind, hh]
        simp [localItem, List.append_assoc, bne, hh]
      · simp only [remoteMatch] at hfind
        simp only [hfind, hh, if_neg]
        rw [classifyPass_spec rel remoteFiles rest]
        simp only [List.filter_cons, remoteMatch, hfind]
        simp [localItem, List.append_assoc, bne, hh]
    | none =>
      simp only [remoteMatch] at hfind
      simp only [hfind]
      rw [classifyPass_spec rel remoteFiles rest]
      simp only [List.filter_cons, remoteMatch, hfind]
      simp [localItem, List.append_assoc]

/-- Characterization of `initUploadStatus`: each bucket is the map-filter
of the assets by its claim-side condition. -/
lemma initUploadStatus_eq (rel : String → String) (excludeTest : String → Bool)
    (remoteFiles : List LogDetail) (assets : List LocalAsset) :
    QiniuCDNPlugin.initUploadStatus rel excludeTest remoteFiles assets =
      { exclude := (assets.filter (exclCond excludeTest)).map
          (fun a => ⟨filePath2Uri a.assetKey, "*EXCLUDED*"⟩),
        omitted := (assets.filter (omitCond rel excludeTest remoteFiles)).map (localItem rel),
        upload := (assets.filter (uploadCond rel excludeTest remoteFiles)).map (localItem rel),
        overwrite :=
          (assets.filter (overwriteCond rel excludeTest remoteFiles)).map (localItem rel) } := by
  unfold QiniuCDNPlugin.initUploadStatus
  rw [excludePass_spec, classifyPass_spec]
  simp only [emptyUploadStatus, List.nil_append, List.filter_filter]
  congr 1
  · refine congrArg (List.map (localItem rel)) (List.filter_congr ?_)
    intro a _
    unfold omitCond
    exact Bool.and_comm _ _
  · refine congrArg (List.map (localItem rel)) (List.filter_congr ?_)
    intro a _
    unfold uploadCond
    exact Bool.and_comm _ _
  · refine congrArg (List.map (localItem rel)) (List.filter_congr ?_)
    intro a _
    unfold overwriteCond
    exact Bool.and_comm _ _

/-- Every local asset satisfies exactly one of the four classification
conditions. -/
lemma classification_exactly_one (rel : String → String) (excludeTest : String → Bool)
    (remoteFiles : List LogDetail) (a : LocalAsset) :
    (exclCond excludeTest a).toNat +
    (uploadCond rel excludeTest remoteFiles a).toNat +
    (omitCond rel excludeTest remoteFiles a).toNat +
    (overwriteCond rel excludeTest remoteFiles a).toNat = 1 := by
  unfold exclCond uploadCond omitCond overwriteCond
  cases hexcl : excludeTest a.assetKey with
  | true => simp
  | false =>
    cases hm : remoteMatch rel remoteFiles a with
    | none => simp
    | some remoteFile =>
      by_cases hh : remoteFile.hash == a.hash
      · simp [hh, bne]
      · simp [hh, bne]

/-- Claim C4: the diff classification is a disjoint complete cover of the
local files: the excluded bucket is exactly the excluded assets with the
sentinel hash `*EXCLUDED*`; the upload, omit and overwrite buckets are
exactly the kept assets with no remote filename match, an equal-hash
match, and a different-hash match respectively; and for every local asset
exactly one of the four conditions holds. -/
theorem initUploadStatus_partition (rel : String → String) (excludeTest : String → Bool)
    (remoteFiles : List LogDetail) (assets : List LocalAsset) :
    (QiniuCDNPlugin.initUploadStatus rel excludeTest remoteFiles assets).exclude =
      (assets.filter (exclCond excludeTest)).map
        (fun a => ⟨filePath2Uri a.assetKey, "*EXCLUDED*"⟩) ∧
    (QiniuCDNPlugin.initUploadStatus rel excludeTest remoteFiles assets).omitted =
      (assets.filter (omitCond rel excludeTest remoteFiles)).map (localItem rel) ∧
    (QiniuCDNPlugin.initUploadStatus rel excludeTest remoteFiles assets).upload =
      (assets.filter (uploadCond rel excludeTest remoteFiles)).map (localItem rel) ∧
    (QiniuCDNPlugin.initUploadStatus rel excludeTest remoteFiles assets).overwrite =
      (assets.filter (overwriteCond rel excludeTest remoteFiles)).map (localItem rel) ∧
    ∀ a ∈ assets,
      (exclCond excludeTest a).toNat +
      (uploadCond rel excludeTest remoteFiles a).toNat +
      (omitCond rel excludeTest remoteFiles a).toNat +
      (overwriteCond rel excludeTest remoteFiles a).toNat = 1 := by
  refine ⟨by rw [initUploadStatus_eq], by rw [initUploadStatus_eq],
    by rw [initUploadStatus_eq], by rw [initUploadStatus_eq], ?_⟩
  intro a _
  exact classification_exactly_one rel excludeTest remoteFiles a

/-- Concrete instantiation of the C4 theorem: in a three-asset build with
one excluded file, the kept asset `b.js` (no remote counterpart) satisfies
exactly one classification condition. -/
theorem initUploadStatus_partition_witness :
    (exclCond (fun p => p == "skip.txt") ⟨"b.js", "h2"⟩).toNat +
    (uploadCond id (fun p => p == "skip.txt") [⟨"a.js", "h1"⟩] ⟨"b.js", "h2"⟩).toNat +
    (omitCond id (fun p => p == "skip.txt") [⟨"a.js", "h1"⟩] ⟨"b.js", "h2"⟩).toNat +
    (overwriteCond id (fun p => p == "skip.txt") [⟨"a.js", "h1"⟩] ⟨"b.js", "h2"⟩).toNat = 1 :=
  (initUploadStatus_partition id (fun p => p == "skip.txt") [⟨"a.js", "h1"⟩]
    [⟨"a.js", "h1"⟩, ⟨"b.js", "h2"⟩, ⟨"skip.txt", "h3"⟩]).2.2.2.2
    ⟨"b.js", "h2"⟩ (by decide)

/-! ### Claim C8 — diff on identical snapshots -/

/-- Claim C8: when no file is excluded, remote filenames are unique (the
snapshot invariant), and every local file has a remote counterpart with
the same normalized filename and an equal hash, the diff yields empty
`upload` and `overwrite` buckets and an `omit` bucket holding exactly all
local files. -/
theorem diff_identical_snapshots_all_omit (rel : String → String)
    (excludeTest : String → Bool) (remoteFiles : List LogDetail)
    (assets : List LocalAsset)
    (hexcl : ∀ a ∈ assets, excludeTest a.assetKey = false)
    (huniq : (remoteFiles.map LogDetail.filename).Nodup)
    (hmatch : ∀ a ∈ assets, ∃ r ∈ remoteFiles,
      r.filename = filePath2Uri (rel a.assetKey) ∧ r.hash = a.hash) :
    (QiniuCDNPlugin.initUploadStatus rel excludeTest remoteFiles assets).upload = [] ∧
    (QiniuCDNPlugin.initUploadStatus rel excludeTest remoteFiles assets).overwrite = [] ∧
    (QiniuCDNPlugin.initUploadStatus rel excludeTest remoteFiles assets).omitted =
      assets.map (localItem rel) := by
  have hm : ∀ a ∈ assets, ∃ r, remoteMatch rel remoteFiles a = some r ∧ r.hash = a.hash := by
    intro a ha
    obtain ⟨r, hrmem, hrname, hrhash⟩ := hmatch a ha
    have hsome : (remoteMatch rel remoteFiles a).isSome := by
      rw [remoteMatch, List.find?_isSome]
      exact ⟨r, hrmem, by rw [hrname]; exact beq_self_eq_true _⟩
    obtain ⟨s, hs⟩ := Option.isSome_iff_exists.mp hsome
    refine ⟨s, hs, ?_⟩
    rw [remoteMatch] at hs
    have hp := List.find?_some hs
    have hp' : (s.filename == filePath2Uri (rel a.assetKey)) = true := hp
    have hmem : s ∈ remoteFiles := List.mem_of_find?_eq_some hs
    have hname : s.filename = r.filename := by
      rw [hrname]
      exact beq_iff_eq.mp hp'
    have hsr : s = r := List.inj_on_of_nodup_map huniq hmem hrmem hname
    rw [hsr, hrhash]
  rw [initUploadStatus_eq]
  refine ⟨?_, ?_, ?_⟩
  · show ((assets.filter (uploadCond rel excludeTest remoteFiles)).map (localItem rel)) = []
    rw [List.map_eq_nil_iff, List.filter_eq_nil_iff]
    intro a ha
    obtain ⟨r, hfind, _⟩ := hm a ha
    simp [uploadCond, hfind]
  · show ((assets.filter (overwriteCond rel excludeTest remoteFiles)).map (localItem rel)) = []
    rw [List.map_eq_nil_iff, List.filter_eq_nil_iff]
    intro a ha
    obtain ⟨r, hfind, hhash⟩ := hm a ha
    simp [overwriteCond, hfind, bne, hhash]
  · show ((assets.filter (omitCond rel excludeTest remoteFiles)).map (localItem rel)) =
      assets.map (localItem rel)
    rw [List.filter_eq_self.mpr]
    intro a ha
    obtain ⟨r, hfind, hhash⟩ := hm a ha
    simp [omitCond, hfind, hhash, hexcl a ha]

/-- Concrete instantiation of the C8 theorem: two local files identical to
the remote snapshot are both omitted, nothing is uploaded or
overwritten. -/
theorem diff_identical_snapshots_all_omit_witness :
    (QiniuCDNPlugin.initUploadStatus id (fun _ => false)
      [⟨"a.js", "h1"⟩, ⟨"b/c.js", "h2"⟩]
      [⟨"a.js", "h1"⟩, ⟨"b/c.js", "h2"⟩]).upload = [] ∧
    (QiniuCDNPlugin.initUploadStatus id (fun _ => false)
      [⟨"a.js", "h1"⟩, ⟨"b/c.js", "h2"⟩]
      [⟨"a.js", "h1"⟩, ⟨"b/c.js", "h2"⟩]).overwrite = [] ∧
    (QiniuCDNPlugin.initUploadStatus id (fun _ => false)
      [⟨"a.js", "h1"⟩, ⟨"b/c.js", "h2"⟩]
      [⟨"a.js", "h1"⟩, ⟨"b/c.js", "h2"⟩]).omitted =
      [⟨"a.js", "h1"⟩, ⟨"b/c.js", "h2"⟩].map (localItem id) :=
  diff_identical_snapshots_all_omit id (fun _ => false)
    [⟨"a.js", "h1"⟩, ⟨"b/c.js", "h2"⟩]
    [⟨"a.js", "h1"⟩, ⟨"b/c.js", "h2"⟩]
    (by decide) (by decide)
    (by
      intro a ha
      rcases List.mem_cons.mp ha with h | h
      · subst h
        exact ⟨⟨"a.js", "h1"⟩, by decide, by decide, rfl⟩
      · rcases List.mem_cons.mp h with h2 | h2
        · subst h2
          exact ⟨⟨"b/c.js", "h2"⟩, by decide, by decide, rfl⟩
        · exact absurd h2 (List.not_mem_nil a))

/-! ### Claims C2 and C9 — the expiry clean set -/

lemma findVersionLoop_some_of_match (filename : String) (hash : Option String) :
    ∀ (l : List LogRecord) (i0 j : Nat) (r : LogRecord),
      l[j]? = some r →
      (∃ f ∈ r.upload ++ r.omitted, VersionLog.fileTest filename hash f = true) →
      ∃ vd, VersionLog.findVersionLoop filename hash i0 l = some vd ∧
        vd.versionIndex ≤ i0 + j
  | [], i0, j, r => by simp
  | a :: rest, i0, j, r => by
    intro hget hmatch
    rw [VersionLog.findVersionLoop]
    cases hfind : (a.upload ++ a.omitted).find? (VersionLog.fileTest filename hash) with
    | some f => exact ⟨⟨i0, a.timestamp⟩, rfl, Nat.le_add_right i0 j⟩
    | none =>
      match j with
      | 0 =>
        simp only [List.getElem?_cons_zero, Option.some_inj] at hget
        subst hget
        obtain ⟨f, hf, hft⟩ := hmatch
        exact absurd hft (by simp [List.find?_eq_none.mp hfind f hf])
      | j + 1 =>
        rw [List.getElem?_cons_succ] at hget
        obtain ⟨vd, hvd, hle⟩ :=
          findVersionLoop_some_of_match filename hash rest (i0 + 1) j r hget hmatch
        exact ⟨vd, hvd, by omega⟩

/-- Any file occurring in the snapshot at index `i` is found by
`findVersion` (no hash), at an index no greater than `i`. -/
lemma findVersion_of_mem (record : List LogRecord) (i : Nat) (r : LogRecord)
    (f : LogDetail) (hget : record[i]? = some r) (hf : f ∈ r.upload ++ r.omitted) :
    ∃ vd, VersionLog.findVersion record f.filename = some vd ∧ vd.versionIndex ≤ i := by
  have hmatch : ∃ g ∈ r.upload ++ r.omitted,
      VersionLog.fileTest f.filename none g = true :=
    ⟨f, hf, by simp [VersionLog.fileTest]⟩
  have := findVersionLoop_some_of_match f.filename none record 0 i r hget hmatch
  simpa [VersionLog.findVersion] using this

lemma mapIdx_ext {α β : Type} (f g : Nat → α → β) (h : ∀ i a, f i a = g i a) :
    ∀ l : List α, l.mapIdx f = l.mapIdx g
  | [] => rfl
  | a :: rest => by
    rw [List.mapIdx_cons, List.mapIdx_cons, h 0 a,
      mapIdx_ext _ _ (fun i a => h (i + 1) a) rest]

lemma cleanFilesLoop_eq (record : List LogRecord) (e : Nat) :
    ∀ (files : List LogDetail),
      (∀ f ∈ files, (VersionLog.findVersion record f.filename).isSome) →
      QiniuCDNPlugin.cleanFilesLoop record e files =
        some (files.filter (cleanPred record e))
  | [], _ => rfl
  | f :: fs, h => by
    obtain ⟨vd, hvd⟩ := Option.isSome_iff_exists.mp (h f (List.mem_cons_self f fs))
    rw [QiniuCDNPlugin.cleanFilesLoop, hvd,
      cleanFilesLoop_eq record e fs (fun g hg => h g (List.mem_cons_of_mem f hg))]
    simp only [Option.some_bind, List.filter_cons, cleanPred, hvd]
    by_cases hge : vd.versionIndex ≥ e
    · simp [hge]
    · simp [hge]

lemma cleanVersionsLoop_eq (record : List LogRecord) (e arrLen : Nat) :
    ∀ (l : List LogRecord) (idx : Nat),
      (∀ (k : Nat) (r : LogRecord), l[k]? = some r →
        ∀ f ∈ r.upload ++ r.omitted, (VersionLog.findVersion record f.filename).isSome) →
      QiniuCDNPlugin.cleanVersionsLoop record e arrLen idx l =
        some (((l.mapIdx fun k r =>
            r.upload ++ (if idx + k = arrLen - 1 then r.omitted else [])).flatten).filter
          (cleanPred record e))
  | [], idx, _ => rfl
  | r :: rest, idx, h => by
    rw [QiniuCDNPlugin.cleanVersionsLoop]
    have hfiles : ∀ f ∈ r.upload ++ (if idx == arrLen - 1 then r.omitted else []),
        (VersionLog.findVersion record f.filename).isSome := by
      intro f hf
      refine h 0 r (by simp) f ?_
      rcases List.mem_append.mp hf with hl | hr
      · exact List.mem_append.mpr (Or.inl hl)
      · by_cases hidx : idx == arrLen - 1
        · rw [if_pos hidx] at hr
          exact List.mem_append.mpr (Or.inr hr)
        · rw [if_neg hidx] at hr
          exact absurd hr (List.not_mem_nil f)
    rw [cleanFilesLoop_eq record e _ hfiles,
      cleanVersionsLoop_eq record e arrLen rest (idx + 1)
        (fun k s hk => h (k + 1) s (by rw [List.getElem?_cons_succ]; exact hk))]
    simp only [Option.some_bind, List.mapIdx_cons, List.flatten_cons, List.filter_append]
    have hshift :
        (rest.mapIdx fun i a =>
          (fun k (r : LogRecord) =>
            r.upload ++ (if idx + k = arrLen - 1 then r.omitted else [])) (i + 1) a) =
        rest.mapIdx fun k r =>
          r.upload ++ (if idx + 1 + k = arrLen - 1 then r.omitted else []) := by
      apply mapIdx_ext
      intro i a
      show a.upload ++ (if idx + (i + 1) = arrLen - 1 then a.omitted else []) = _
      have harith : idx + (i + 1) = idx + 1 + i := by omega
      rw [harith]
    rw [hshift]
    have hhead : (if (idx == arrLen - 1) = true then r.omitted else ([] : List LogDetail)) =
        (if idx + 0 = arrLen - 1 then r.omitted else []) := by
      by_cases hidx : idx = arrLen - 1
      · rw [if_pos (by simp [hidx]), if_pos (by omega)]
      · rw [if_neg (by simp [hidx]), if_neg (by omega)]
    rw [hhead]
    rfl

lemma drop_findable (record : List LogRecord) (e : Nat) :
    ∀ (k : Nat) (r : LogRecord), (record.drop e)[k]? = some r →
      ∀ f ∈ r.upload ++ r.omitted, (VersionLog.findVersion record f.filename).isSome := by
  intro k r hk f hf
  rw [List.getElem?_drop] at hk
  obtain ⟨vd, hvd, _⟩ := findVersion_of_mem record (e + k) r f hk hf
  rw [hvd]
  rfl

lemma zero_add_mapIdx (record : List LogRecord) (e n : Nat) :
    ((record.drop e).mapIdx fun k r =>
      r.upload ++ (if 0 + k = n - 1 then r.omitted else [])) =
    ((record.drop e).mapIdx fun i r =>
      r.upload ++ (if i = n - 1 then r.omitted else [])) := by
  apply mapIdx_ext
  intro i a
  rw [Nat.zero_add]

/-- Claim C2: on a non-empty log the expiry engine's clean set is exactly
as claimed — `deadline = lastVersion.timestamp - policy.time` when
`policy.time` is given (else absent), `expireIndex` from
`getFirstExpireVersionIndex`, candidates the `upload` entries of every
snapshot at index ≥ `expireIndex` plus the `omit` entries of the single
oldest snapshot of that range, kept if and only if
`findVersion(filename).versionIndex ≥ expireIndex`. -/
theorem initCleanStatus_eq_cleanSpec (record : List LogRecord) (expire : ExpireOption)
    (h : record ≠ []) :
    QiniuCDNPlugin.initCleanStatus record expire = some (cleanSpec record expire) := by
  obtain ⟨lv, rest, hlv⟩ : ∃ lv rest, record = lv :: rest := by
    cases record with
    | nil => exact absurd rfl h
    | cons a t => exact ⟨a, t, rfl⟩
  unfold QiniuCDNPlugin.initCleanStatus cleanSpec
  cases htime : expire.time with
  | none =>
    simp only [htime, Option.bind_eq_bind, Option.some_bind, VersionLog.getVersions]
    rw [cleanVersionsLoop_eq record _ _ _ 0 (drop_findable record _)]
    rw [zero_add_mapIdx]
  | some t =>
    have hlast : VersionLog.getLastVersion record = some lv := by
      rw [hlv]
      rfl
    have hhead : record.head? = some lv := by
      rw [hlv]
      rfl
    simp only [htime, hlast, hhead, Option.bind_eq_bind, Option.some_bind,
      VersionLog.getVersions]
    rw [cleanVersionsLoop_eq record _ _ _ 0 (drop_findable record _)]
    rw [zero_add_mapIdx]

/-- Concrete instantiation of the C2 theorem: with `versions = 1` on a
three-snapshot log, the expired tail is the oldest snapshot and its
`old.js` upload (still owned by the expired snapshot) is the whole clean
set, matching `cleanSpec`. -/
theorem initCleanStatus_eq_cleanSpec_witness :
    QiniuCDNPlugin.initCleanStatus
        [⟨30, [⟨"new.js", "h2"⟩], [⟨"keep.js", "h1"⟩]⟩,
         ⟨20, [⟨"keep.js", "h1"⟩], []⟩,
         ⟨10, [⟨"old.js", "h0"⟩], []⟩] ⟨none, some 1⟩ =
      some (cleanSpec
        [⟨30, [⟨"new.js", "h2"⟩], [⟨"keep.js", "h1"⟩]⟩,
         ⟨20, [⟨"keep.js", "h1"⟩], []⟩,
         ⟨10, [⟨"old.js", "h0"⟩], []⟩] ⟨none, some 1⟩) ∧
    QiniuCDNPlugin.initCleanStatus
        [⟨30, [⟨"new.js", "h2"⟩], [⟨"keep.js", "h1"⟩]⟩,
         ⟨20, [⟨"keep.js", "h1"⟩], []⟩,
         ⟨10, [⟨"old.js", "h0"⟩], []⟩] ⟨none, some 1⟩ =
      some [⟨"old.js", "h0"⟩] :=
  ⟨initCleanStatus_eq_cleanSpec
      [⟨30, [⟨"new.js", "h2"⟩], [⟨"keep.js", "h1"⟩]⟩,
       ⟨20, [⟨"keep.js", "h1"⟩], []⟩,
       ⟨10, [⟨"old.js", "h0"⟩], []⟩] ⟨none, some 1⟩ (by decide),
   by decide⟩

/-- Claim C9: every candidate file of the expiry computation comes from a
snapshot that is in the log, so `findVersion(file.filename)` always finds
an occurrence at an index no greater than the candidate's own snapshot
index; hence on the non-empty logs the engine runs on, the
`.versionIndex` access inside `initCleanStatus` never dereferences
`undefined` — the modelled computation returns a value rather than the
`none` that models a `TypeError`. -/
theorem initCleanStatus_never_undefined (record : List LogRecord) (expire : ExpireOption)
    (h : record ≠ []) :
    (∀ (i : Nat) (r : LogRecord) (f : LogDetail), record[i]? = some r →
      f ∈ r.upload ++ r.omitted →
      ∃ vd, VersionLog.findVersion record f.filename = some vd ∧ vd.versionIndex ≤ i) ∧
    (QiniuCDNPlugin.initCleanStatus record expire).isSome := by
  refine ⟨fun i r f hget hf => findVersion_of_mem record i r f hget hf, ?_⟩
  rw [initCleanStatus_eq_cleanSpec record expire h]
  rfl

/-- Concrete instantiation of the C9 theorem: on a two-snapshot log the
omitted `a.js` of the older snapshot is found at index 0 ≤ 1, and the
expiry computation with both bounds produces a value. -/
theorem initCleanStatus_never_undefined_witness :
    (∃ vd, VersionLog.findVersion
        [⟨20, [⟨"a.js", "h1"⟩], []⟩, ⟨10, [], [⟨"a.js", "h1"⟩]⟩]
        "a.js" = some vd ∧ vd.versionIndex ≤ 1) ∧
    (QiniuCDNPlugin.initCleanStatus
        [⟨20, [⟨"a.js", "h1"⟩], []⟩, ⟨10, [], [⟨"a.js", "h1"⟩]⟩]
        ⟨some 5, some 0⟩).isSome :=
  ⟨(initCleanStatus_never_undefined
      [⟨20, [⟨"a.js", "h1"⟩], []⟩, ⟨10, [], [⟨"a.js", "h1"⟩]⟩]
      ⟨some 5, some 0⟩ (by decide)).1 1 ⟨10, [], [⟨"a.js", "h1"⟩]⟩ ⟨"a.js", "h1"⟩
      (by decide) (by decide),
   (initCleanStatus_never_undefined
      [⟨20, [⟨"a.js", "h1"⟩], []⟩, ⟨10, [], [⟨"a.js", "h1"⟩]⟩]
      ⟨some 5, some 0⟩ (by decide)).2⟩

/-! ### Claim C6 — 404 on the remote log -/

/-- Claim C6 evaluated on the code at the failing input: when the fetch of
the listed log file reports no transport error but status 404, the
continuation of the initialization phase is never invoked (neither with
nor without an error; the branch only warns), so the run stalls instead of
proceeding to the diff and upload phases; the history does stay empty. -/
theorem readLogHandler_404_stalls (parseLog : String → Option (List LogRecord))
    (log : List LogRecord) (content : String) :
    readLogHandler parseLog log none 404 content = (CallbackOutcome.notCalled, log) ∧
    CallbackOutcome.notCalled ≠ CallbackOutcome.calledOk := by
  refine ⟨rfl, ?_⟩
  intro hcontra
  exact absurd hcontra (by decide)

/-! ### Claim C10 — the query operations do not mutate the log -/

lemma Heap.read_alloc_of_lt (h : Heap) (v : List LogRecord) (r : Nat)
    (hr : r < h.next) : (h.alloc v).1.read r = h.read r := by
  unfold Heap.alloc Heap.read
  exact if_neg (Nat.ne_of_lt hr)

lemma Heap.alloc_snd (h : Heap) (v : List LogRecord) : (h.alloc v).2 = h.next := rfl

lemma Heap.read_write_ne (h : Heap) (w : Nat) (v : List LogRecord) (r : Nat)
    (hne : r ≠ w) : (h.write w v).read r = h.read r := by
  unfold Heap.write Heap.read
  exact if_neg hne

/-- Claim C10: `init` works on a copy — after `initOp` the caller's input
array cell is unchanged and `this.record` points elsewhere; the query
operations `findVersion`, `getLastVersion`, `getFirstExpireVersionIndex`
leave the whole state untouched; `getFreshVersions` and `getVersions`
keep `this.record` and its contents intact and hand out a freshly
allocated array — a reference distinct from `this.record`, so that even
overwriting the returned array never changes the log's record sequence. -/
theorem versionLog_queries_no_mutation (s : VLState) (content : Nat)
    (hrec : s.record < s.heap.next) (hcontent : content < s.heap.next) :
    ((VLState.initOp s content).heap.read content = s.heap.read content ∧
      (VLState.initOp s content).record ≠ content) ∧
    (∀ (filename : String) (hash : Option String) (startIndex : Nat),
      (VLState.findVersionOp s filename hash startIndex).2 = s) ∧
    ((VLState.getLastVersionOp s).2 = s) ∧
    (∀ (maxiumVersion : Option Nat) (deadline : Option Int),
      (VLState.getFirstExpireVersionIndexOp s maxiumVersion deadline).2 = s) ∧
    (∀ (maxiumVersion : Option Nat) (deadline : Option Int),
      (VLState.getFreshVersionsOp s maxiumVersion deadline).2.record = s.record ∧
      (VLState.getFreshVersionsOp s maxiumVersion deadline).2.heap.read s.record =
        s.heap.read s.record ∧
      (VLState.getFreshVersionsOp s maxiumVersion deadline).1 ≠ s.record ∧
      ∀ v, ((VLState.getFreshVersionsOp s maxiumVersion deadline).2.heap.write
          (VLState.getFreshVersionsOp s maxiumVersion deadline).1 v).read s.record =
        s.heap.read s.record) ∧
    (∀ (startIndex : Nat) (endIndex : Option Nat),
      (VLState.getVersionsOp s startIndex endIndex).2.record = s.record ∧
      (VLState.getVersionsOp s startIndex endIndex).2.heap.read s.record =
        s.heap.read s.record ∧
      (VLState.getVersionsOp s startIndex endIndex).1 ≠ s.record ∧
      ∀ v, ((VLState.getVersionsOp s startIndex endIndex).2.heap.write
          (VLState.getVersionsOp s startIndex endIndex).1 v).read s.record =
        s.heap.read s.record) := by
  refine ⟨⟨?_, ?_⟩, fun _ _ _ => rfl, rfl, fun _ _ => rfl, ?_, ?_⟩
  · simp only [VLState.initOp, Heap.alloc_snd]
    rw [Heap.read_write_ne _ _ _ _ (Nat.ne_of_lt hcontent),
      Heap.read_alloc_of_lt _ _ _ hcontent]
  · unfold VLState.initOp
    exact Nat.ne_of_gt hcontent
  · intro maxiumVersion deadline
    refine ⟨rfl, ?_, Nat.ne_of_gt hrec, ?_⟩
    · exact Heap.read_alloc_of_lt _ _ _ hrec
    · intro v
      simp only [VLState.getFreshVersionsOp, Heap.alloc_snd]
      rw [Heap.read_write_ne _ _ _ _ (Nat.ne_of_lt hrec),
        Heap.read_alloc_of_lt _ _ _ hrec]
  · intro startIndex endIndex
    refine ⟨rfl, ?_, Nat.ne_of_gt hrec, ?_⟩
    · exact Heap.read_alloc_of_lt _ _ _ hrec
    · intro v
      simp only [VLState.getVersionsOp, Heap.alloc_snd]
      rw [Heap.read_write_ne _ _ _ _ (Nat.ne_of_lt hrec),
        Heap.read_alloc_of_lt _ _ _ hrec]

/-- Concrete instantiation of the C10 theorem on a two-cell heap: after
`init` from cell 1 into a log rooted at cell 0, cell 1 is unchanged and
the new record reference differs from it; `findVersion` leaves the state
alone; `getVersions` returns a reference distinct from the record. -/
theorem versionLog_queries_no_mutation_witness :
    ((VLState.initOp ⟨⟨fun _ => [], 2⟩, 0⟩ 1).heap.read 1 =
        Heap.read ⟨fun _ => [], 2⟩ 1 ∧
      (VLState.initOp ⟨⟨fun _ => [], 2⟩, 0⟩ 1).record ≠ 1) ∧
    (VLState.findVersionOp ⟨⟨fun _ => [], 2⟩, 0⟩ "a.js" none 0).2 =
      (⟨⟨fun _ => [], 2⟩, 0⟩ : VLState) ∧
    (VLState.getVersionsOp ⟨⟨fun _ => [], 2⟩, 0⟩ 0 none).1 ≠ 0 :=
  have T := versionLog_queries_no_mutation ⟨⟨fun _ => [], 2⟩, 0⟩ 1
    (by decide) (by decide)
  ⟨T.1, T.2.1 "a.js" none 0, (T.2.2.2.2.2 0 none).2.2.1⟩
